import Mathlib

/-!
Verification of the AWS event-stream decoder core (header codec, frame
codec, streaming decoder, event mapper) of this repository.

Modelling conventions, matching the Node.js source:
* a byte buffer is a `List Nat` (each element a byte value 0..255);
* `Buffer.slice`, which clamps out-of-range indices and never throws,
  is modelled with `List.take` / `List.drop`;
* the fixed-width `Buffer.read*` helpers, which throw a `RangeError`
  when fewer bytes than the width remain, are modelled by an explicit
  length test returning `FormatError.outOfRange`;
* thrown exceptions are modelled with `Except FormatError`;
* JavaScript strings obtained by UTF-8 decoding of a byte region are
  modelled by the raw byte region itself;
* `zlib.gunzipSync` is an external library routine, so frame parsing is
  parameterised over an abstract `gz : List Nat → Option (List Nat)`
  (`none` models a thrown decompression error, which the source
  swallows, keeping the raw bytes).
-/

namespace EvStream

/-- Big-endian value of a byte list, as read by `Buffer.readUIntBE`-style
loops: each byte contributes `b * 256 ^ (number of following bytes)`. -/
def readBE : List Nat → Nat
  | [] => 0
  | b :: t => b * 256 ^ t.length + readBE t

/-- Big-endian encoding of `n` on `w` bytes (most significant first). -/
def beBytes : Nat → Nat → List Nat
  | 0, _ => []
  | w + 1, n => n / 256 ^ w % 256 :: beBytes w (n % 256 ^ w)

/-- Two's-complement reading of an unsigned `w`-byte value, as performed
by `Buffer.readIntBE`-style accessors (`readInt8`, `readInt16BE`,
`readInt32BE`, `readBigInt64BE`). -/
def sval (w : Nat) (v : Nat) : Int :=
  if 2 * v < 2 ^ (8 * w) then (v : Int) else (v : Int) - 2 ^ (8 * w)

/-- Two's-complement encoding of a signed value on `w` bytes. -/
def sEnc (w : Nat) (i : Int) : List Nat :=
  beBytes w (i % (2 ^ (8 * w) : Int)).toNat

/-- `buffer.readUInt32BE(off)` on a buffer with at least `off + 4` bytes. -/
def u32at (b : List Nat) (off : Nat) : Nat :=
  readBE ((b.drop off).take 4)

@[simp] theorem length_beBytes (w n : Nat) : (beBytes w n).length = w := by
  induction w generalizing n with
  | zero => rfl
  | succ w ih => simp [beBytes, ih]

theorem readBE_beBytes (w n : Nat) (h : n < 256 ^ w) :
    readBE (beBytes w n) = n := by
  induction w generalizing n with
  | zero =>
    simp only [Nat.pow_zero, Nat.lt_one_iff] at h
    simp [beBytes, readBE, h]
  | succ w ih =>
    have hmod : n % 256 ^ w < 256 ^ w := Nat.mod_lt _ (Nat.pos_pow_of_pos w (by norm_num))
    have hdiv : n / 256 ^ w < 256 := by
      rw [Nat.div_lt_iff_lt_mul (Nat.pos_pow_of_pos w (by norm_num))]
      calc n < 256 ^ (w + 1) := h
        _ = 256 * 256 ^ w := by ring
    simp only [beBytes, readBE, length_beBytes, ih _ hmod]
    rw [Nat.mod_eq_of_lt hdiv]
    exact Nat.div_add_mod' n (256 ^ w)

/-- Round trip of the two's-complement encoding at the arithmetic level:
reading back an encoded in-range value yields the value. -/
theorem sval_sEnc (w : Nat) (H : Nat) (i : Int)
    (hw : 2 ^ (8 * w) = 2 * H) (h0 : 0 < H)
    (hlo : -(H : Int) ≤ i) (hhi : i < (H : Int)) :
    sval w (readBE (sEnc w i)) = i := by
  obtain ⟨m, hm⟩ : ∃ m : Nat, 2 ^ (8 * w) = m := ⟨_, rfl⟩
  have hmH : m = 2 * H := by rw [← hm, hw]
  have hmcast : (2 ^ (8 * w) : Int) = ((m : Nat) : Int) := by
    rw [← hm]; push_cast; ring
  have hm0 : (0 : Int) < (m : Int) := by
    have : 0 < m := by omega
    exact_mod_cast this
  have hrlo : 0 ≤ i % (m : Int) := Int.emod_nonneg i (ne_of_gt hm0)
  have hrhi : i % (m : Int) < (m : Int) := Int.emod_lt_of_pos i hm0
  have h256 : (256 : Nat) ^ w = m := by
    rw [← hm, show (256 : Nat) = 2 ^ 8 from by norm_num, ← Nat.pow_mul]
  unfold sEnc sval
  rw [hmcast, hm, readBE_beBytes w _ (by rw [h256]; omega)]
  rcases le_or_lt 0 i with hpos | hneg
  · have heq : i % (m : Int) = i := Int.emod_eq_of_lt hpos (by omega)
    rw [heq]
    have hc : 2 * i.toNat < m := by omega
    rw [if_pos hc]
    omega
  · have heq : i % (m : Int) = i + (m : Int) := by
      have h1 : (i + (m : Int) * 1) % (m : Int) = i % (m : Int) :=
        Int.add_mul_emod_self_left i (m : Int) 1
      have h2 : (i + (m : Int)) % (m : Int) = i + (m : Int) :=
        Int.emod_eq_of_lt (by omega) (by omega)
      calc i % (m : Int) = (i + (m : Int) * 1) % (m : Int) := h1.symm
        _ = (i + (m : Int)) % (m : Int) := by ring_nf
        _ = i + (m : Int) := h2
    rw [heq]
    have hc : ¬ 2 * (i + (m : Int)).toNat < m := by omega
    rw [if_neg hc]
    omega

/-- The thrown errors of the decoder core: the frame codec's invalid
declared length, the header codec's unknown type tag, and the
`RangeError` thrown by the fixed-width buffer reads. -/
inductive FormatError : Type where
  | invalidLength (n : Nat)
  | unknownHeaderType (t : Nat)
  | outOfRange
  deriving DecidableEq, Repr

/-- Decoded header values, one constructor per wire type family.
Strings (tags 7 and 9's hex rendering) keep their raw bytes; a
timestamp keeps its millisecond count. -/
inductive HVal : Type where
  | bool (b : Bool)
  | byte (i : Int)
  | short (i : Int)
  | int (i : Int)
  | long (i : Int)
  | bytes (bs : List Nat)
  | str (bs : List Nat)
  | timestamp (ms : Int)
  | uuid (bs : List Nat)
  deriving DecidableEq, Repr

/-- Header records in wire order (name bytes, decoded value). -/
abbrev Headers := List (List Nat × HVal)

/-- JavaScript object lookup for headers built by repeated assignment:
the last assignment to a name wins. -/
def lookupLast (hs : Headers) (key : List Nat) : Option HVal :=
  match hs with
  | [] => none
  | (n, v) :: t =>
    match lookupLast t key with
    | some w => some w
    | none => if n = key then some v else none

/-- The bytes of the ASCII string `:content-type`. -/
def ctName : List Nat :=
  [58, 99, 111, 110, 116, 101, 110, 116, 45, 116, 121, 112, 101]

/-- The bytes of the ASCII string `application/vnd.amazon.eventstream`. -/
def markerName : List Nat :=
  [97, 112, 112, 108, 105, 99, 97, 116, 105, 111, 110, 47, 118, 110, 100,
   46, 97, 109, 97, 122, 111, 110, 46, 101, 118, 101, 110, 116, 115, 116,
   114, 101, 97, 109]

/-- The bytes of the ASCII string `:event-type`. -/
def etName : List Nat :=
  [58, 101, 118, 101, 110, 116, 45, 116, 121, 112, 101]

/-- The source's nested-stream test
`headers[':content-type'] === 'application/vnd.amazon.eventstream'`:
strict string equality, hence only a string-typed header can match. -/
def isMarker (hs : Headers) : Bool :=
  match lookupLast hs ctName with
  | some (.str s) => s == markerName
  | _ => false

/-- One iteration of the source's `parseHeaders` loop, with the
recursive continuation abstracted as `rec`: read a 1-byte name length,
the (clamped) name bytes, a 1-byte type tag, then the tag-specific
value exactly as the source's switch does.  Tags 0-9 are decoded per
the wire table; any other tag throws `unknownHeaderType`; a
fixed-width read past the end of the region throws the `RangeError`
modelled by `outOfRange`. -/
def headerStep (rec : List Nat → Except FormatError Headers) :
    List Nat → Except FormatError Headers
  | [] => .ok []
  | nameLen :: r0 =>
    let name := r0.take nameLen
    match r0.drop nameLen with
    | [] => .error .outOfRange
    | tag :: r2 =>
      match tag with
      | 0 => (rec r2).map (fun hs => (name, .bool true) :: hs)
      | 1 => (rec r2).map (fun hs => (name, .bool false) :: hs)
      | 2 =>
        match r2 with
        | [] => .error .outOfRange
        | b :: r3 => (rec r3).map (fun hs => (name, .byte (sval 1 b)) :: hs)
      | 3 =>
        if r2.length < 2 then .error .outOfRange
        else (rec (r2.drop 2)).map
          (fun hs => (name, .short (sval 2 (readBE (r2.take 2)))) :: hs)
      | 4 =>
        if r2.length < 4 then .error .outOfRange
        else (rec (r2.drop 4)).map
          (fun hs => (name, .int (sval 4 (readBE (r2.take 4)))) :: hs)
      | 5 =>
        if r2.length < 8 then .error .outOfRange
        else (rec (r2.drop 8)).map
          (fun hs => (name, .long (sval 8 (readBE (r2.take 8)))) :: hs)
      | 6 =>
        if r2.length < 2 then .error .outOfRange
        else (rec ((r2.drop 2).drop (readBE (r2.take 2)))).map
          (fun hs => (name, .bytes ((r2.drop 2).take (readBE (r2.take 2)))) :: hs)
      | 7 =>
        if r2.length < 2 then .error .outOfRange
        else (rec ((r2.drop 2).drop (readBE (r2.take 2)))).map
          (fun hs => (name, .str ((r2.drop 2).take (readBE (r2.take 2)))) :: hs)
      | 8 =>
        if r2.length < 8 then .error .outOfRange
        else (rec (r2.drop 8)).map
          (fun hs => (name, .timestamp (sval 8 (readBE (r2.take 8)))) :: hs)
      | 9 => (rec (r2.drop 16)).map (fun hs => (name, .uuid (r2.take 16)) :: hs)
      | t => .error (.unknownHeaderType t)

/-- The source's `parseHeaders` loop, fuel-indexed for termination (each
iteration consumes at least two bytes of the region). -/
def parseHeadersF : Nat → List Nat → Except FormatError Headers
  | 0, l =>
    match l with
    | [] => .ok []
    | _ :: _ => .error .outOfRange
  | fuel + 1, l => headerStep (parseHeadersF fuel) l

/-- The source's `parseHeaders`, with enough fuel for its own region. -/
def parseHeaders (b : List Nat) : Except FormatError Headers :=
  parseHeadersF (b.length + 1) b

/-- A parsed frame: headers, payload (`none` models the source's
`payload: null`), optional nested frame, and the consumed byte count. -/
inductive Frame : Type where
  | mk (headers : Headers) (payload : Option (List Nat))
       (nested : Option Frame) (consumed : Nat)

def Frame.headers : Frame → Headers
  | .mk h _ _ _ => h

def Frame.payload : Frame → Option (List Nat)
  | .mk _ p _ _ => p

def Frame.nested : Frame → Option Frame
  | .mk _ _ n _ => n

def Frame.consumed : Frame → Nat
  | .mk _ _ _ c => c

/-- What a `decode()` iteration yields for an extracted frame:
`frame.nested` if present, the frame itself otherwise. -/
def Frame.emit (f : Frame) : Frame :=
  match f.nested with
  | some g => g
  | none => f

/-- The source's gzip hook: when the payload starts with the gzip magic
bytes `1f 8b`, try `gz`; a `none` result models the swallowed
decompression error, so the raw payload is kept. -/
def maybeGunzip (gz : List Nat → Option (List Nat)) (p : List Nat) : List Nat :=
  match p with
  | 31 :: 139 :: _ =>
    match gz p with
    | some out => out
    | none => p
  | _ => p

/-- The source's `parseFrame(buffer)` (the offset argument is always 0 at
every call site), with the nested-stream recursion abstracted as `rec`:
prelude length checks, the `totalLength` bounds test, header decoding
over the clamped slice `[12, 12 + headersLength)`, the payload region
`[12 + headersLength, totalLength - 4)`, the nested-stream branch on the
`:content-type` marker, and opportunistic gunzip of the payload.
`Except.error` models a thrown exception; `.ok none` models the `null`
insufficient-data return. -/
def frameStep (gz : List Nat → Option (List Nat))
    (rec : List Nat → Except FormatError (Option Frame))
    (b : List Nat) : Except FormatError (Option Frame) :=
  if b.length < 16 then .ok none
  else
    let tl := u32at b 0
    let hl := u32at b 4
    if tl < 16 ∨ 16 * 1024 * 1024 < tl then .error (.invalidLength tl)
    else if b.length < tl then .ok none
    else
      match parseHeaders ((b.take (12 + hl)).drop 12) with
      | .error e => .error e
      | .ok hs =>
        let payload := (b.take (tl - 4)).drop (12 + hl)
        if isMarker hs then
          match rec payload with
          | .error e => .error e
          | .ok nf => .ok (some (.mk hs none nf tl))
        else
          .ok (some (.mk hs (some (maybeGunzip gz payload)) none tl))

/-- The nested-frame recursion of `parseFrame`, fuel-indexed (each
nesting level strips at least a prelude from the region). -/
def parseFrameF (gz : List Nat → Option (List Nat)) :
    Nat → List Nat → Except FormatError (Option Frame)
  | 0, _ => .ok none
  | fuel + 1, b => frameStep gz (parseFrameF gz fuel) b

/-- `parseFrame` with enough fuel for its buffer (each nesting level
strips at least a prelude, so `length + 1` levels always suffice). -/
def parseFrame (gz : List Nat → Option (List Nat)) (b : List Nat) :
    Except FormatError (Option Frame) :=
  parseFrameF gz (b.length + 1) b

/-- One iteration of the decoder's `decode()` loop, with the loop
continuation abstracted as `rec`: while at least 16 bytes are buffered,
extract a frame (yielding its nested frame in its place when present)
and drop `consumed` bytes, stop on insufficient data, or drop a single
byte on a thrown error.  Returns the yielded frames, the remaining
buffer, and the number of one-byte resync skips. -/
def decodeStep (gz : List Nat → Option (List Nat))
    (rec : List Nat → List Frame × List Nat × Nat)
    (b : List Nat) : List Frame × List Nat × Nat :=
  if b.length < 16 then ([], b, 0)
  else
    match parseFrame gz b with
    | .ok none => ([], b, 0)
    | .ok (some f) =>
      let r := rec (b.drop f.consumed)
      (f.emit :: r.1, r.2.1, r.2.2)
    | .error _ =>
      let r := rec (b.drop 1)
      (r.1, r.2.1, r.2.2 + 1)

/-- The `decode()` loop, fuel-indexed (each iteration drops at least one
buffered byte). -/
def decodeLoopF (gz : List Nat → Option (List Nat)) :
    Nat → List Nat → List Frame × List Nat × Nat
  | 0, b => ([], b, 0)
  | fuel + 1, b => decodeStep gz (decodeLoopF gz fuel) b

/-- One full `decode()` call on a decoder whose buffer holds `b`: every
iteration either stops or drops at least one byte, so `length` fuel
always suffices. -/
def decodeAll (gz : List Nat → Option (List Nat)) (b : List Nat) :
    List Frame × List Nat × Nat :=
  decodeLoopF gz b.length b

/-- A fresh decoder driven chunk by chunk: starting from buffered
residue `r`, `feed` each chunk and run one `decode()` call after each
feed, concatenating the yielded frames and adding up the resync skips. -/
def feedDecode (gz : List Nat → Option (List Nat)) :
    List Nat → List (List Nat) → List Frame × List Nat × Nat
  | r, [] => ([], r, 0)
  | r, c :: cs =>
    let d := decodeAll gz (r ++ c)
    let rest := feedDecode gz d.2.1 cs
    (d.1 ++ rest.1, rest.2.1, d.2.2 + rest.2.2)

/-- Concatenation of a chunk list into one byte sequence. -/
def concatChunks : List (List Nat) → List Nat
  | [] => []
  | c :: cs => c ++ concatChunks cs

/-- The event produced by the event mapper: the `:event-type` header
value (absent if the header is missing) and the mapped payload.  The
data is `null`, a parsed structured value, or the payload's UTF-8
text (kept as its raw bytes). -/
inductive KData (α : Type) : Type where
  | null
  | json (j : α)
  | text (bs : List Nat)

/-- The source's `parseKiroEvent(frame)`.  `JSON.parse` composed with
UTF-8 decoding is an external runtime facility, so the mapper is
parameterised over `jp`; a `none` result models a thrown parse error,
which the source turns into the raw-text fallback. -/
def parseKiroEvent {α : Type} (jp : List Nat → Option α) (fr : Frame) :
    Option HVal × KData α :=
  let et := lookupLast fr.headers etName
  match fr.payload with
  | none => (et, .null)
  | some [] => (et, .null)
  | some p =>
    match jp p with
    | some j => (et, .json j)
    | none => (et, .text p)

/-- A gunzip instance for concrete evaluations: decompression always
fails, so payloads are kept raw (no witness input carries the gzip
magic, so the choice is immaterial there). -/
def gzNone : List Nat → Option (List Nat) := fun _ => none

/-! ### Unfolding machinery: the fuel-indexed functions are fixpoints -/

theorem headerStep_congr (r1 r2 : List Nat → Except FormatError Headers) (l : List Nat)
    (h : ∀ l2 : List Nat, l2.length < l.length → r1 l2 = r2 l2) :
    headerStep r1 l = headerStep r2 l := by
  cases l with
  | nil => rfl
  | cons nameLen r0 =>
    simp only [headerStep]
    cases hdr : r0.drop nameLen with
    | nil => rfl
    | cons tag r2l =>
      have hr2 : r2l.length ≤ r0.length := by
        have hlen := congrArg List.length hdr
        simp only [List.length_drop, List.length_cons] at hlen
        omega
      have hrec : ∀ l2 : List Nat, l2.length ≤ r2l.length → r1 l2 = r2 l2 := by
        intro l2 hl2
        apply h
        simp only [List.length_cons]
        omega
      rcases tag with _|_|_|_|_|_|_|_|_|_|t <;>
        solve
          | rfl
          | simp [hrec, Nat.sub_le]
          | (cases r2l <;> simp [hrec, Nat.sub_le, Nat.le_succ])

theorem parseHeadersF_irrel :
    ∀ (n f1 f2 : Nat) (l : List Nat), l.length ≤ n → l.length < f1 → l.length < f2 →
      parseHeadersF f1 l = parseHeadersF f2 l := by
  intro n
  induction n with
  | zero =>
    intro f1 f2 l hn h1 h2
    have hl : l = [] := List.length_eq_zero.mp (Nat.le_zero.mp hn)
    subst hl
    cases f1 <;> cases f2 <;> rfl
  | succ n ih =>
    intro f1 f2 l hn h1 h2
    cases l with
    | nil => cases f1 <;> cases f2 <;> rfl
    | cons x r0 =>
      obtain ⟨a, rfl⟩ : ∃ a, f1 = a + 1 := ⟨f1 - 1, by omega⟩
      obtain ⟨b, rfl⟩ : ∃ b, f2 = b + 1 := ⟨f2 - 1, by omega⟩
      simp only [parseHeadersF]
      apply headerStep_congr
      intro l2 hl2
      simp only [List.length_cons] at hl2 hn h1 h2
      exact ih a b l2 (by omega) (by omega) (by omega)

/-- `parseHeaders` satisfies the loop equation of the source: fuel is
invisible at the `parseHeaders` level. -/
theorem parseHeaders_eq (l : List Nat) : parseHeaders l = headerStep parseHeaders l := by
  show parseHeadersF (l.length + 1) l = _
  simp only [parseHeadersF]
  apply headerStep_congr
  intro l2 hl2
  exact parseHeadersF_irrel l.length l.length (l2.length + 1) l2 (by omega) (by omega) (by omega)

theorem frameStep_congr (gz : List Nat → Option (List Nat))
    (r1 r2 : List Nat → Except FormatError (Option Frame)) (b : List Nat)
    (h : ∀ b2 : List Nat, b2.length < b.length → r1 b2 = r2 b2) :
    frameStep gz r1 b = frameStep gz r2 b := by
  by_cases h16 : b.length < 16
  · simp [frameStep, h16]
  · simp only [frameStep, if_neg h16]
    by_cases hbad : u32at b 0 < 16 ∨ 16 * 1024 * 1024 < u32at b 0
    · simp [hbad]
    · simp only [if_neg hbad]
      by_cases hincomplete : b.length < u32at b 0
      · simp [hincomplete]
      · simp only [if_neg hincomplete]
        cases hh : parseHeaders ((b.take (12 + u32at b 4)).drop 12) with
        | error e => rfl
        | ok hs =>
          by_cases hmk : isMarker hs
          · have hlen : ((b.take (u32at b 0 - 4)).drop (12 + u32at b 4)).length < b.length := by
              simp only [List.length_drop, List.length_take]
              omega
            simp [hmk, h _ hlen]
          · simp [hmk]

theorem parseFrameF_irrel (gz : List Nat → Option (List Nat)) :
    ∀ (n f1 f2 : Nat) (b : List Nat), b.length ≤ n → b.length < f1 → b.length < f2 →
      parseFrameF gz f1 b = parseFrameF gz f2 b := by
  intro n
  induction n with
  | zero =>
    intro f1 f2 b hn h1 h2
    have hb : b = [] := List.length_eq_zero.mp (Nat.le_zero.mp hn)
    subst hb
    obtain ⟨a, rfl⟩ : ∃ a, f1 = a + 1 := ⟨f1 - 1, by omega⟩
    obtain ⟨c, rfl⟩ : ∃ c, f2 = c + 1 := ⟨f2 - 1, by omega⟩
    rfl
  | succ n ih =>
    intro f1 f2 b hn h1 h2
    obtain ⟨a, rfl⟩ : ∃ a, f1 = a + 1 := ⟨f1 - 1, by omega⟩
    obtain ⟨c, rfl⟩ : ∃ c, f2 = c + 1 := ⟨f2 - 1, by omega⟩
    simp only [parseFrameF]
    apply frameStep_congr
    intro b2 hb2
    exact ih a c b2 (by omega) (by omega) (by omega)

/-- `parseFrame` satisfies the recursion equation of the source: fuel is
invisible at the `parseFrame` level. -/
theorem parseFrame_eq (gz : List Nat → Option (List Nat)) (b : List Nat) :
    parseFrame gz b = frameStep gz (parseFrame gz) b := by
  show parseFrameF gz (b.length + 1) b = _
  simp only [parseFrameF]
  apply frameStep_congr
  intro b2 hb2
  exact parseFrameF_irrel gz b.length b.length (b2.length + 1) b2 (by omega) (by omega) (by omega)

/-- When one `frameStep` computation returns a frame, the frame records
the declared `totalLength` as `consumed`, and all three prelude guards
have passed. -/
theorem frameStep_some (gz : List Nat → Option (List Nat))
    (rec : List Nat → Except FormatError (Option Frame)) (b : List Nat) (f : Frame)
    (h : frameStep gz rec b = .ok (some f)) :
    f.consumed = u32at b 0 ∧ ¬ b.length < 16 ∧
      ¬ (u32at b 0 < 16 ∨ 16 * 1024 * 1024 < u32at b 0) ∧ ¬ b.length < u32at b 0 := by
  simp only [frameStep] at h
  by_cases h16 : b.length < 16
  · rw [if_pos h16] at h
    exact absurd h (by simp)
  · rw [if_neg h16] at h
    by_cases hbad : u32at b 0 < 16 ∨ 16 * 1024 * 1024 < u32at b 0
    · rw [if_pos hbad] at h
      exact absurd h (by simp)
    · rw [if_neg hbad] at h
      by_cases hinc : b.length < u32at b 0
      · rw [if_pos hinc] at h
        exact absurd h (by simp)
      · rw [if_neg hinc] at h
        refine ⟨?_, h16, hbad, hinc⟩
        split at h
        · exact absurd h (by simp)
        · split at h
          · split at h
            · exact absurd h (by simp)
            · injection h with h1
              injection h1 with h2
              rw [← h2]
              rfl
          · injection h with h1
            injection h1 with h2
            rw [← h2]
            rfl

/-- A successfully extracted frame consumes exactly the declared
`totalLength`, which the codec has checked to be within bounds and
fully buffered. -/
theorem parseFrame_consumed (gz : List Nat → Option (List Nat)) (b : List Nat) (f : Frame)
    (h : parseFrame gz b = .ok (some f)) :
    f.consumed = u32at b 0 ∧ 16 ≤ f.consumed ∧ f.consumed ≤ b.length ∧
      f.consumed ≤ 16 * 1024 * 1024 := by
  rw [parseFrame_eq] at h
  have hc := frameStep_some gz (parseFrame gz) b f h
  omega

theorem decodeLoopF_small (gz : List Nat → Option (List Nat)) (fuel : Nat) (b : List Nat)
    (h : b.length < 16) : decodeLoopF gz fuel b = ([], b, 0) := by
  cases fuel with
  | zero => rfl
  | succ fuel => simp [decodeLoopF, decodeStep, h]

theorem decodeStep_congr (gz : List Nat → Option (List Nat))
    (r1 r2 : List Nat → List Frame × List Nat × Nat) (b : List Nat)
    (h : ∀ b2 : List Nat, b2.length < b.length → r1 b2 = r2 b2) :
    decodeStep gz r1 b = decodeStep gz r2 b := by
  by_cases h16 : b.length < 16
  · simp [decodeStep, h16]
  · simp only [decodeStep, if_neg h16]
    cases hp : parseFrame gz b with
    | error e =>
      simp only [h (b.drop 1) (by simp only [List.length_drop]; omega)]
    | ok o =>
      cases o with
      | none => rfl
      | some f =>
        have hc := parseFrame_consumed gz b f hp
        simp only [h (b.drop f.consumed) (by simp only [List.length_drop]; omega)]

theorem decodeLoopF_irrel (gz : List Nat → Option (List Nat)) :
    ∀ (n f1 f2 : Nat) (b : List Nat), b.length ≤ n → b.length ≤ f1 → b.length ≤ f2 →
      decodeLoopF gz f1 b = decodeLoopF gz f2 b := by
  intro n
  induction n with
  | zero =>
    intro f1 f2 b hn h1 h2
    have hb : b = [] := List.length_eq_zero.mp (Nat.le_zero.mp hn)
    subst hb
    rw [decodeLoopF_small gz f1 [] (by simp), decodeLoopF_small gz f2 [] (by simp)]
  | succ n ih =>
    intro f1 f2 b hn h1 h2
    by_cases h16 : b.length < 16
    · rw [decodeLoopF_small gz f1 b h16, decodeLoopF_small gz f2 b h16]
    · obtain ⟨a, rfl⟩ : ∃ a, f1 = a + 1 := ⟨f1 - 1, by omega⟩
      obtain ⟨c, rfl⟩ : ∃ c, f2 = c + 1 := ⟨f2 - 1, by omega⟩
      simp only [decodeLoopF]
      apply decodeStep_congr
      intro b2 hb2
      exact ih a c b2 (by omega) (by omega) (by omega)

/-- `decodeAll` satisfies the `decode()` loop equation of the source:
fuel is invisible at the `decodeAll` level. -/
theorem decodeAll_eq_step (gz : List Nat → Option (List Nat)) (b : List Nat) :
    decodeAll gz b = decodeStep gz (decodeAll gz) b := by
  by_cases h16 : b.length < 16
  · rw [show decodeAll gz b = ([], b, 0) from decodeLoopF_small gz b.length b h16]
    simp [decodeStep, h16]
  · show decodeLoopF gz b.length b = _
    obtain ⟨a, ha⟩ : ∃ a, b.length = a + 1 := ⟨b.length - 1, by omega⟩
    rw [ha]
    simp only [decodeLoopF]
    apply decodeStep_congr
    intro b2 hb2
    exact decodeLoopF_irrel gz b2.length a b2.length b2 (by omega) (by omega) (by omega)

theorem decodeAll_small (gz : List Nat → Option (List Nat)) (b : List Nat)
    (h : b.length < 16) : decodeAll gz b = ([], b, 0) :=
  decodeLoopF_small gz b.length b h

/-- `decode()` on an incomplete frame: nothing is consumed, nothing is
yielded, the call ends. -/
theorem decodeAll_of_none (gz : List Nat → Option (List Nat)) (b : List Nat)
    (hp : parseFrame gz b = .ok none) : decodeAll gz b = ([], b, 0) := by
  rw [decodeAll_eq_step]
  by_cases h16 : b.length < 16
  · simp [decodeStep, h16]
  · simp [decodeStep, h16, hp]

/-- `decode()` on a buffer whose head extracts a frame: the frame (or
its nested frame) is yielded and the buffer advances by `consumed`. -/
theorem decodeAll_of_some (gz : List Nat → Option (List Nat)) (b : List Nat) (f : Frame)
    (h16 : ¬ b.length < 16) (hp : parseFrame gz b = .ok (some f)) :
    decodeAll gz b =
      (f.emit :: (decodeAll gz (b.drop f.consumed)).1,
       (decodeAll gz (b.drop f.consumed)).2.1,
       (decodeAll gz (b.drop f.consumed)).2.2) := by
  rw [decodeAll_eq_step]
  simp [decodeStep, h16, hp]

/-- `decode()` on a buffer whose head throws: one byte is skipped and
the loop continues. -/
theorem decodeAll_of_error (gz : List Nat → Option (List Nat)) (b : List Nat) (e : FormatError)
    (h16 : ¬ b.length < 16) (hp : parseFrame gz b = .error e) :
    decodeAll gz b =
      ((decodeAll gz (b.drop 1)).1,
       (decodeAll gz (b.drop 1)).2.1,
       (decodeAll gz (b.drop 1)).2.2 + 1) := by
  rw [decodeAll_eq_step]
  simp [decodeStep, h16, hp]

/-! ### Buffer extension: when a parse is unaffected by later bytes -/

theorem drop_drop_add (l : List Nat) (i j : Nat) : (l.drop i).drop j = l.drop (i + j) := by
  rw [List.drop_drop]

theorem u32at_append (b c : List Nat) (off : Nat) (h : off + 4 ≤ b.length) :
    u32at (b ++ c) off = u32at b off := by
  unfold u32at
  rw [List.drop_append_of_le_length (by omega),
    List.take_append_of_le_length (by simp only [List.length_drop]; omega)]

/-- The spec constraint `headersLength ≤ totalLength - 16`, phrased for
the frame prelude read at the head of `s` whenever that prelude is
length-valid and fully buffered. -/
def fitFor (s : List Nat) : Prop :=
  16 ≤ s.length → ¬ (u32at s 0 < 16 ∨ 16 * 1024 * 1024 < u32at s 0) →
    u32at s 0 ≤ s.length → 12 + u32at s 4 + 4 ≤ u32at s 0

instance (s : List Nat) : Decidable (fitFor s) := by
  unfold fitFor
  infer_instance

/-- Every suffix of the stream satisfies the header-fit constraint; the
buffer states of any decoding run over the stream are among these
suffixes. -/
def SuffixFit (t : List Nat) : Prop := ∀ k : Nat, fitFor (t.drop k)

theorem suffixFit_drop (t : List Nat) (k : Nat) (h : SuffixFit t) :
    SuffixFit (t.drop k) := by
  intro j
  rw [drop_drop_add]
  exact h (k + j)

theorem fitFor_nil : fitFor [] := by
  intro h16
  simp at h16

/-- Checking the finitely many suffixes suffices. -/
theorem suffixFit_of_bounded (t : List Nat) (h : ∀ k < t.length, fitFor (t.drop k)) :
    SuffixFit t := by
  intro k
  by_cases hk : k < t.length
  · exact h k hk
  · rw [List.drop_eq_nil_of_le (by omega)]
    exact fitFor_nil

/-- Appending bytes to a buffer does not change the extraction at its
head, unless the head was an incomplete frame: the prelude reads only
the first 8 bytes, the frame body only the first `totalLength` bytes,
and under the header-fit constraint the header slice stays inside the
frame. -/
theorem parseFrame_append (gz : List Nat → Option (List Nat)) (b c : List Nat)
    (h16 : 16 ≤ b.length)
    (hfit : ¬ (u32at b 0 < 16 ∨ 16 * 1024 * 1024 < u32at b 0) → u32at b 0 ≤ b.length →
      12 + u32at b 4 + 4 ≤ u32at b 0) :
    parseFrame gz b = .ok none ∨ parseFrame gz (b ++ c) = parseFrame gz b := by
  have hu0 : u32at (b ++ c) 0 = u32at b 0 := u32at_append b c 0 (by omega)
  have hu4 : u32at (b ++ c) 4 = u32at b 4 := u32at_append b c 4 (by omega)
  have hlapp : (b ++ c).length = b.length + c.length := List.length_append b c
  by_cases hbad : u32at b 0 < 16 ∨ 16 * 1024 * 1024 < u32at b 0
  · right
    rw [parseFrame_eq gz b, parseFrame_eq gz (b ++ c)]
    simp only [frameStep, hu0, hu4]
    rw [if_neg (show ¬ (b ++ c).length < 16 by omega),
      if_neg (show ¬ b.length < 16 by omega), if_pos hbad, if_pos hbad]
  · by_cases hinc : b.length < u32at b 0
    · left
      rw [parseFrame_eq gz b]
      simp only [frameStep]
      rw [if_neg (show ¬ b.length < 16 by omega), if_neg hbad, if_pos hinc]
    · right
      have hfit2 : 12 + u32at b 4 + 4 ≤ u32at b 0 := hfit hbad (by omega)
      have hhdr : ((b ++ c).take (12 + u32at b 4)).drop 12 =
          (b.take (12 + u32at b 4)).drop 12 := by
        rw [List.take_append_of_le_length (by omega)]
      have hpay : ((b ++ c).take (u32at b 0 - 4)).drop (12 + u32at b 4) =
          (b.take (u32at b 0 - 4)).drop (12 + u32at b 4) := by
        rw [List.take_append_of_le_length (by omega)]
      rw [parseFrame_eq gz b, parseFrame_eq gz (b ++ c)]
      simp only [frameStep, hu0, hu4, hhdr, hpay]
      rw [if_neg (show ¬ (b ++ c).length < 16 by omega),
        if_neg (show ¬ b.length < 16 by omega), if_neg hbad, if_neg hbad,
        if_neg (show ¬ (b ++ c).length < u32at b 0 by omega), if_neg hinc]

/-- The residual buffer after a `decode()` call is a suffix of the
buffer: only front truncation ever happens. -/
theorem decodeAll_residue (gz : List Nat → Option (List Nat)) :
    ∀ (n : Nat) (b : List Nat), b.length ≤ n →
      ∃ k, k ≤ b.length ∧ (decodeAll gz b).2.1 = b.drop k := by
  intro n
  induction n with
  | zero =>
    intro b hn
    have hb : b = [] := List.length_eq_zero.mp (Nat.le_zero.mp hn)
    subst hb
    exact ⟨0, by simp, by rw [decodeAll_small gz [] (by simp)]; simp⟩
  | succ n ih =>
    intro b hn
    by_cases h16 : b.length < 16
    · exact ⟨0, by omega, by rw [decodeAll_small gz b h16]; simp⟩
    · cases hp : parseFrame gz b with
      | error e =>
        rw [decodeAll_of_error gz b e h16 hp]
        obtain ⟨k, hk, hres⟩ := ih (b.drop 1) (by simp only [List.length_drop]; omega)
        refine ⟨1 + k, ?_, ?_⟩
        · simp only [List.length_drop] at hk
          omega
        · rw [hres, drop_drop_add]
      | ok o =>
        cases o with
        | none => exact ⟨0, by omega, by rw [decodeAll_of_none gz b hp]; simp⟩
        | some f =>
          rw [decodeAll_of_some gz b f h16 hp]
          have hc := parseFrame_consumed gz b f hp
          obtain ⟨k, hk, hres⟩ := ih (b.drop f.consumed) (by simp only [List.length_drop]; omega)
          refine ⟨f.consumed + k, ?_, ?_⟩
          · simp only [List.length_drop] at hk
            omega
          · rw [hres, drop_drop_add]

/-- A buffer on which a `decode()` call makes no progress: too short for
a prelude, or an incomplete declared frame. -/
def StuckBuf (gz : List Nat → Option (List Nat)) (r : List Nat) : Prop :=
  r.length < 16 ∨ parseFrame gz r = .ok none

theorem decodeAll_of_stuck (gz : List Nat → Option (List Nat)) (r : List Nat)
    (h : StuckBuf gz r) : decodeAll gz r = ([], r, 0) := by
  cases h with
  | inl h => exact decodeAll_small gz r h
  | inr h => exact decodeAll_of_none gz r h

/-- The residual buffer after a `decode()` call is stuck: calling
`decode()` again without feeding yields nothing more. -/
theorem decodeAll_stuck (gz : List Nat → Option (List Nat)) :
    ∀ (n : Nat) (b : List Nat), b.length ≤ n → StuckBuf gz (decodeAll gz b).2.1 := by
  intro n
  induction n with
  | zero =>
    intro b hn
    have hb : b = [] := List.length_eq_zero.mp (Nat.le_zero.mp hn)
    subst hb
    rw [decodeAll_small gz [] (by simp)]
    exact Or.inl (by simp)
  | succ n ih =>
    intro b hn
    by_cases h16 : b.length < 16
    · rw [decodeAll_small gz b h16]
      exact Or.inl h16
    · cases hp : parseFrame gz b with
      | error e =>
        rw [decodeAll_of_error gz b e h16 hp]
        exact ih (b.drop 1) (by simp only [List.length_drop]; omega)
      | ok o =>
        cases o with
        | none =>
          rw [decodeAll_of_none gz b hp]
          exact Or.inr hp
        | some f =>
          rw [decodeAll_of_some gz b f h16 hp]
          have hc := parseFrame_consumed gz b f hp
          exact ih (b.drop f.consumed) (by simp only [List.length_drop]; omega)

/-- Core composition lemma: under the header-fit constraint, decoding
`b ++ c` is decoding `b`, then decoding the residue with `c` appended;
frames concatenate and resync skips add up. -/
theorem decode_append (gz : List Nat → Option (List Nat)) :
    ∀ (n : Nat) (b : List Nat), b.length ≤ n → ∀ c : List Nat, SuffixFit (b ++ c) →
      decodeAll gz (b ++ c) =
        ((decodeAll gz b).1 ++ (decodeAll gz ((decodeAll gz b).2.1 ++ c)).1,
         (decodeAll gz ((decodeAll gz b).2.1 ++ c)).2.1,
         (decodeAll gz b).2.2 + (decodeAll gz ((decodeAll gz b).2.1 ++ c)).2.2) := by
  intro n
  induction n with
  | zero =>
    intro b hn c hfit
    have hb : b = [] := List.length_eq_zero.mp (Nat.le_zero.mp hn)
    subst hb
    rw [decodeAll_small gz [] (by simp)]
    simp
  | succ n ih =>
    intro b hn c hfit
    by_cases h16 : b.length < 16
    · rw [decodeAll_small gz b h16]
      simp
    · have hu0 : u32at (b ++ c) 0 = u32at b 0 := u32at_append b c 0 (by omega)
      have hu4 : u32at (b ++ c) 4 = u32at b 4 := u32at_append b c 4 (by omega)
      have hfitb := hfit 0
      rw [List.drop_zero] at hfitb
      simp only [fitFor, hu0, hu4] at hfitb
      have hext := parseFrame_append gz b c (by omega) (by
        intro hbad hle
        exact hfitb (by simp only [List.length_append]; omega) hbad
          (by simp only [List.length_append]; omega))
      rcases hext with hnone | heq
      · rw [decodeAll_of_none gz b hnone]
        simp
      · cases hp : parseFrame gz b with
        | error e =>
          have hpc : parseFrame gz (b ++ c) = .error e := by rw [heq, hp]
          have hdrop : (b ++ c).drop 1 = b.drop 1 ++ c :=
            List.drop_append_of_le_length (by omega)
          have hfit1 : SuffixFit (b.drop 1 ++ c) := by
            rw [← hdrop]
            exact suffixFit_drop _ 1 hfit
          rw [decodeAll_of_error gz b e h16 hp,
            decodeAll_of_error gz (b ++ c) e
              (by simp only [List.length_append]; omega) hpc,
            hdrop, ih (b.drop 1) (by simp only [List.length_drop]; omega) c hfit1]
          simp only [Prod.mk.injEq]
          refine ⟨trivial, trivial, by omega⟩
        | ok o =>
          cases o with
          | none =>
            have hpc : parseFrame gz (b ++ c) = .ok none := by rw [heq, hp]
            rw [decodeAll_of_none gz b hp, decodeAll_of_none gz (b ++ c) hpc]
            simp
          | some f =>
            have hpc : parseFrame gz (b ++ c) = .ok (some f) := by rw [heq, hp]
            have hc := parseFrame_consumed gz b f hp
            have hdrop : (b ++ c).drop f.consumed = b.drop f.consumed ++ c :=
              List.drop_append_of_le_length (by omega)
            have hfit1 : SuffixFit (b.drop f.consumed ++ c) := by
              rw [← hdrop]
              exact suffixFit_drop _ f.consumed hfit
            rw [decodeAll_of_some gz b f h16 hp,
              decodeAll_of_some gz (b ++ c) f
                (by simp only [List.length_append]; omega) hpc,
              hdrop, ih (b.drop f.consumed) (by simp only [List.length_drop]; omega) c hfit1]
            simp [Prod.mk.injEq, List.cons_append]

/-- Chunked feeding with a stuck initial residue decodes exactly like
one `decode()` call over the whole concatenation, provided every suffix
of the stream satisfies the header-fit constraint. -/
theorem feedDecode_eq (gz : List Nat → Option (List Nat)) :
    ∀ (cs : List (List Nat)) (r : List Nat), StuckBuf gz r →
      SuffixFit (r ++ concatChunks cs) →
      feedDecode gz r cs = decodeAll gz (r ++ concatChunks cs) := by
  intro cs
  induction cs with
  | nil =>
    intro r hstuck hfit
    show ([], r, 0) = _
    rw [show concatChunks [] = [] from rfl, List.append_nil,
      decodeAll_of_stuck gz r hstuck]
  | cons ch cs ih =>
    intro r hstuck hfit
    have hassoc : r ++ concatChunks (ch :: cs) = (r ++ ch) ++ concatChunks cs := by
      show r ++ (ch ++ concatChunks cs) = _
      rw [List.append_assoc]
    obtain ⟨k, hk, hres⟩ := decodeAll_residue gz (r ++ ch).length (r ++ ch) le_rfl
    have hfitall : SuffixFit ((r ++ ch) ++ concatChunks cs) := by
      rw [← hassoc]
      exact hfit
    have hfit2 : SuffixFit ((decodeAll gz (r ++ ch)).2.1 ++ concatChunks cs) := by
      rw [hres, ← List.drop_append_of_le_length hk]
      exact suffixFit_drop _ k hfitall
    have hstuck2 : StuckBuf gz (decodeAll gz (r ++ ch)).2.1 :=
      decodeAll_stuck gz (r ++ ch).length (r ++ ch) le_rfl
    have hL := decode_append gz (r ++ ch).length (r ++ ch) le_rfl (concatChunks cs) hfitall
    show ((decodeAll gz (r ++ ch)).1 ++ (feedDecode gz (decodeAll gz (r ++ ch)).2.1 cs).1,
      (feedDecode gz (decodeAll gz (r ++ ch)).2.1 cs).2.1,
      (decodeAll gz (r ++ ch)).2.2 + (feedDecode gz (decodeAll gz (r ++ ch)).2.1 cs).2.2) = _
    rw [ih (decodeAll gz (r ++ ch)).2.1 hstuck2 hfit2, hassoc, hL]

/-! ### Shape of successfully extracted frames -/

/-- The fields of a frame returned by one `frameStep`: headers are
decoded from the clamped slice `[12, 12 + headersLength)`; a
nested-marker frame has no payload and its `nested` field is the
recursive extraction of the payload region; any other frame carries the
(possibly gunzipped) payload region and no `nested`. -/
theorem frameStep_shape (gz : List Nat → Option (List Nat))
    (rec : List Nat → Except FormatError (Option Frame)) (b : List Nat) (f : Frame)
    (h : frameStep gz rec b = .ok (some f)) :
    parseHeaders ((b.take (12 + u32at b 4)).drop 12) = .ok f.headers ∧
      (isMarker f.headers = true → f.payload = none ∧
        rec ((b.take (u32at b 0 - 4)).drop (12 + u32at b 4)) = .ok f.nested) ∧
      (isMarker f.headers = false → f.nested = none ∧
        f.payload = some (maybeGunzip gz ((b.take (u32at b 0 - 4)).drop (12 + u32at b 4)))) := by
  simp only [frameStep] at h
  by_cases h16 : b.length < 16
  · rw [if_pos h16] at h
    exact absurd h (by simp)
  · rw [if_neg h16] at h
    by_cases hbad : u32at b 0 < 16 ∨ 16 * 1024 * 1024 < u32at b 0
    · rw [if_pos hbad] at h
      exact absurd h (by simp)
    · rw [if_neg hbad] at h
      by_cases hinc : b.length < u32at b 0
      · rw [if_pos hinc] at h
        exact absurd h (by simp)
      · rw [if_neg hinc] at h
        split at h
        · exact absurd h (by simp)
        · rename_i hs hhs
          split at h
          · rename_i hmk
            split at h
            · exact absurd h (by simp)
            · rename_i nf hnf
              injection h with h1
              injection h1 with h2
              rw [← h2]
              simp only [Frame.headers, Frame.payload, Frame.nested]
              refine ⟨hhs, fun _ => ⟨by trivial, hnf⟩, fun hcontra => absurd hcontra (by simp [hmk])⟩
          · rename_i hmk
            injection h with h1
            injection h1 with h2
            rw [← h2]
            simp only [Frame.headers, Frame.payload, Frame.nested]
            exact ⟨hhs, fun hcontra => absurd hcontra (by simp at hmk; simp [hmk]),
              fun _ => ⟨by trivial, by trivial⟩⟩

/-! ### Invalid-length errors always report an out-of-bounds length -/

theorem except_map_eq_error {e : FormatError} (x : Except FormatError Headers)
    (g : Headers → Headers) (h : x.map g = .error e) : x = .error e := by
  cases x with
  | error e2 => simpa [Except.map] using h
  | ok v => simp [Except.map] at h

/-- The header codec never throws the frame codec's invalid-length
error. -/
theorem headerStep_not_invalid (rec : List Nat → Except FormatError Headers)
    (hrec : ∀ (l2 : List Nat) (n : Nat), rec l2 ≠ .error (.invalidLength n))
    (l : List Nat) (n : Nat) : headerStep rec l ≠ .error (.invalidLength n) := by
  cases l with
  | nil => simp [headerStep]
  | cons nameLen r0 =>
    simp only [headerStep]
    cases hdr : r0.drop nameLen with
    | nil => simp
    | cons tag r2l =>
      rcases tag with _|_|_|_|_|_|_|_|_|_|t <;>
        intro h <;>
        (try simp only [Nat.reduceAdd] at h) <;>
        solve
          | simp at h
          | exact hrec _ n (except_map_eq_error _ _ h)
          | (split at h
             <;> first
               | exact hrec _ n (except_map_eq_error _ _ h)
               | simp at h)

theorem parseHeadersF_not_invalid :
    ∀ (fuel : Nat) (l : List Nat) (n : Nat),
      parseHeadersF fuel l ≠ .error (.invalidLength n) := by
  intro fuel
  induction fuel with
  | zero =>
    intro l n
    cases l <;> simp [parseHeadersF]
  | succ fuel ih =>
    intro l n
    exact headerStep_not_invalid (parseHeadersF fuel) (fun l2 n2 => ih l2 n2) l n

/-- Whenever the frame codec (at any nesting depth) throws an
invalid-length error, the reported length really is out of bounds. -/
theorem parseFrameF_invalid_bounds (gz : List Nat → Option (List Nat)) :
    ∀ (fuel : Nat) (b : List Nat) (n : Nat),
      parseFrameF gz fuel b = .error (.invalidLength n) →
      n < 16 ∨ 16 * 1024 * 1024 < n := by
  intro fuel
  induction fuel with
  | zero =>
    intro b n h
    simp [parseFrameF] at h
  | succ fuel ih =>
    intro b n h
    simp only [parseFrameF, frameStep] at h
    by_cases h16 : b.length < 16
    · rw [if_pos h16] at h
      simp at h
    · rw [if_neg h16] at h
      by_cases hbad : u32at b 0 < 16 ∨ 16 * 1024 * 1024 < u32at b 0
      · rw [if_pos hbad] at h
        simp only [Except.error.injEq, FormatError.invalidLength.injEq] at h
        omega
      · rw [if_neg hbad] at h
        by_cases hinc : b.length < u32at b 0
        · rw [if_pos hinc] at h
          simp at h
        · rw [if_neg hinc] at h
          split at h
          · rename_i e2 hhs
            injection h with h1
            rw [h1] at hhs
            exact absurd hhs (parseHeadersF_not_invalid _ _ n)
          · split at h
            · split at h
              · rename_i e2 hnf
                injection h with h1
                rw [h1] at hnf
                exact ih _ n hnf
              · simp at h
            · simp at h

theorem parseFrame_invalid_bounds (gz : List Nat → Option (List Nat)) (b : List Nat) (n : Nat)
    (h : parseFrame gz b = .error (.invalidLength n)) : n < 16 ∨ 16 * 1024 * 1024 < n :=
  parseFrameF_invalid_bounds gz (b.length + 1) b n h


/-! ### Payload/nested discipline of extracted frames -/

/-- Well-formedness of an extracted frame, at every nesting level: a
nested-marker frame has no payload (its `nested` field may still be
absent when the payload held no complete frame); any other frame has a
payload and no `nested` frame. -/
inductive FrameWF : Frame → Prop where
  | intro (hs : Headers) (p : Option (List Nat)) (nst : Option Frame) (c : Nat)
      (hmk : isMarker hs = true → p = none)
      (hnm : isMarker hs = false → (∃ q, p = some q) ∧ nst = none)
      (hrec : ∀ g, nst = some g → FrameWF g) :
      FrameWF (Frame.mk hs p nst c)

theorem frameWF_fields (f : Frame) (h : FrameWF f) :
    (isMarker f.headers = true → f.payload = none) ∧
      (isMarker f.headers = false → (∃ q, f.payload = some q) ∧ f.nested = none) := by
  cases h with
  | intro hs p nst c hmk hnm hrec => exact ⟨hmk, hnm⟩

theorem frameWF_nested (f g : Frame) (h : FrameWF f) (hg : f.nested = some g) :
    FrameWF g := by
  cases h with
  | intro hs p nst c hmk hnm hrec => exact hrec g hg

/-- Every frame extracted by the frame codec is well formed, at every
nesting level. -/
theorem parseFrame_wf (gz : List Nat → Option (List Nat)) :
    ∀ (n : Nat) (b : List Nat), b.length ≤ n → ∀ f : Frame,
      parseFrame gz b = .ok (some f) → FrameWF f := by
  intro n
  induction n with
  | zero =>
    intro b hn f h
    have hb : b = [] := List.length_eq_zero.mp (Nat.le_zero.mp hn)
    subst hb
    rw [show parseFrame gz [] = (.ok none : Except FormatError (Option Frame)) from rfl] at h
    exact absurd h (by simp)
  | succ n ih =>
    intro b hn f h
    rw [parseFrame_eq] at h
    obtain ⟨hhs, hmk, hnm⟩ := frameStep_shape gz (parseFrame gz) b f h
    have hcons := frameStep_some gz (parseFrame gz) b f h
    cases f with
    | mk hs p nst c =>
      refine FrameWF.intro hs p nst c ?_ ?_ ?_
      · intro hm
        exact (hmk hm).1
      · intro hm
        have h2 := hnm hm
        exact ⟨⟨_, h2.2⟩, h2.1⟩
      · intro g hg
        by_cases hm : isMarker hs = true
        · have h2 := (hmk hm).2
          have h3 : parseFrame gz ((b.take (u32at b 0 - 4)).drop (12 + u32at b 4)) =
              .ok (some g) := by
            rw [h2]
            show Except.ok nst = _
            rw [hg]
          apply ih ((b.take (u32at b 0 - 4)).drop (12 + u32at b 4))
          · simp only [List.length_drop, List.length_take]
            omega
          · exact h3
        · have h2 := hnm (by simpa using hm)
          have h3 : nst = none := h2.1
          rw [h3] at hg
          exact absurd hg (by simp)

/-- Every frame yielded by a `decode()` call satisfies the top-level
payload/nested discipline. -/
theorem decodeAll_wf (gz : List Nat → Option (List Nat)) :
    ∀ (n : Nat) (b : List Nat), b.length ≤ n → ∀ fr : Frame, fr ∈ (decodeAll gz b).1 →
      (isMarker fr.headers = true → fr.payload = none) ∧
        (isMarker fr.headers = false → (∃ q, fr.payload = some q) ∧ fr.nested = none) := by
  intro n
  induction n with
  | zero =>
    intro b hn fr hmem
    have hb : b = [] := List.length_eq_zero.mp (Nat.le_zero.mp hn)
    subst hb
    rw [decodeAll_small gz [] (by simp)] at hmem
    exact absurd hmem (by simp)
  | succ n ih =>
    intro b hn fr hmem
    by_cases h16 : b.length < 16
    · rw [decodeAll_small gz b h16] at hmem
      exact absurd hmem (by simp)
    · cases hp : parseFrame gz b with
      | error e =>
        rw [decodeAll_of_error gz b e h16 hp] at hmem
        exact ih (b.drop 1) (by simp only [List.length_drop]; omega) fr hmem
      | ok o =>
        cases o with
        | none =>
          rw [decodeAll_of_none gz b hp] at hmem
          exact absurd hmem (by simp)
        | some f =>
          rw [decodeAll_of_some gz b f h16 hp] at hmem
          have hc := parseFrame_consumed gz b f hp
          cases hmem with
          | head =>
            have hwf := parseFrame_wf gz b.length b le_rfl f hp
            unfold Frame.emit
            cases hg : f.nested with
            | none => exact frameWF_fields f hwf
            | some g => exact frameWF_fields g (frameWF_nested f g hwf hg)
          | tail _ hmem2 =>
            exact ih (b.drop f.consumed) (by simp only [List.length_drop]; omega) fr hmem2

/-- The number of resync skips of one `decode()` call never exceeds the
buffered byte count. -/
theorem decodeAll_skips_le (gz : List Nat → Option (List Nat)) :
    ∀ (n : Nat) (b : List Nat), b.length ≤ n → (decodeAll gz b).2.2 ≤ b.length := by
  intro n
  induction n with
  | zero =>
    intro b hn
    have hb : b = [] := List.length_eq_zero.mp (Nat.le_zero.mp hn)
    subst hb
    rw [decodeAll_small gz [] (by simp)]
    simp
  | succ n ih =>
    intro b hn
    by_cases h16 : b.length < 16
    · rw [decodeAll_small gz b h16]
      simp
    · cases hp : parseFrame gz b with
      | error e =>
        rw [decodeAll_of_error gz b e h16 hp]
        have := ih (b.drop 1) (by simp only [List.length_drop]; omega)
        simp only [List.length_drop] at this
        show (decodeAll gz (b.drop 1)).2.2 + 1 ≤ b.length
        omega
      | ok o =>
        cases o with
        | none =>
          rw [decodeAll_of_none gz b hp]
          simp
        | some f =>
          rw [decodeAll_of_some gz b f h16 hp]
          have hc := parseFrame_consumed gz b f hp
          have := ih (b.drop f.consumed) (by simp only [List.length_drop]; omega)
          simp only [List.length_drop] at this
          show (decodeAll gz (b.drop f.consumed)).2.2 ≤ b.length
          omega


/-! ### The wire table of Section 4.2, as an encoder, and its round trip -/

/-- Ranges in which a decoded value can be re-encoded on the wire: the
signed widths, the 2-byte length prefixes, and the fixed UUID width. -/
def HValValid : HVal → Prop
  | .bool _ => True
  | .byte i => -128 ≤ i ∧ i < 128
  | .short i => -32768 ≤ i ∧ i < 32768
  | .int i => -2147483648 ≤ i ∧ i < 2147483648
  | .long i => -9223372036854775808 ≤ i ∧ i < 9223372036854775808
  | .bytes bs => bs.length < 65536
  | .str bs => bs.length < 65536
  | .timestamp i => -9223372036854775808 ≤ i ∧ i < 9223372036854775808
  | .uuid bs => bs.length = 16

instance : ∀ v : HVal, Decidable (HValValid v)
  | .bool _ => .isTrue trivial
  | .byte i => inferInstanceAs (Decidable (-128 ≤ i ∧ i < 128))
  | .short i => inferInstanceAs (Decidable (-32768 ≤ i ∧ i < 32768))
  | .int i => inferInstanceAs (Decidable (-2147483648 ≤ i ∧ i < 2147483648))
  | .long i => inferInstanceAs (Decidable (-9223372036854775808 ≤ i ∧ i < 9223372036854775808))
  | .bytes bs => inferInstanceAs (Decidable (bs.length < 65536))
  | .str bs => inferInstanceAs (Decidable (bs.length < 65536))
  | .timestamp i =>
    inferInstanceAs (Decidable (-9223372036854775808 ≤ i ∧ i < 9223372036854775808))
  | .uuid bs => inferInstanceAs (Decidable (bs.length = 16))

/-- Modelled from the spec: the wire encoding table of one header value
(type tag, then the tag-specific value bytes). -/
def encodeVal : HVal → List Nat
  | .bool true => [0]
  | .bool false => [1]
  | .byte i => 2 :: sEnc 1 i
  | .short i => 3 :: sEnc 2 i
  | .int i => 4 :: sEnc 4 i
  | .long i => 5 :: sEnc 8 i
  | .bytes bs => 6 :: (beBytes 2 bs.length ++ bs)
  | .str bs => 7 :: (beBytes 2 bs.length ++ bs)
  | .timestamp i => 8 :: sEnc 8 i
  | .uuid bs => 9 :: bs

/-- Modelled from the spec: one wire header record, `NameLength(1)
Name(NameLength) TypeTag(1) Value(...)`. -/
def encodeEntry (name : List Nat) (v : HVal) : List Nat :=
  name.length :: name ++ encodeVal v

@[simp] theorem length_sEnc (w : Nat) (i : Int) : (sEnc w i).length = w := by
  simp [sEnc]

theorem readBE_singleton (x : Nat) : readBE [x] = x := by
  simp [readBE]

/-- Decoding one encoded record prepends exactly the encoded entry and
continues with the rest of the region. -/
theorem parseHeaders_encodeEntry (name : List Nat) (v : HVal) (rest : List Nat)
    (hname : name.length ≤ 255) (hv : HValValid v) :
    parseHeaders (encodeEntry name v ++ rest) =
      (parseHeaders rest).map (fun hs => (name, v) :: hs) := by
  have hsplit : encodeEntry name v ++ rest = name.length :: (name ++ (encodeVal v ++ rest)) := by
    simp [encodeEntry]
  rw [hsplit, parseHeaders_eq]
  simp only [headerStep, List.take_left, List.drop_left]
  rcases v with b | i | i | i | i | bs | bs | i | bs
  · cases b <;> simp [encodeVal]
  · rcases hx : sEnc 1 i with _ | ⟨x, xs⟩
    · exact absurd (congrArg List.length hx) (by simp)
    · have hxs : xs = [] := by
        have h2 := congrArg List.length hx
        simp only [length_sEnc, List.length_cons] at h2
        exact List.length_eq_zero.mp (by omega)
      subst hxs
      have hval : sval 1 x = i := by
        rw [← readBE_singleton x, ← hx]
        exact sval_sEnc 1 128 i (by norm_num) (by norm_num) hv.1 hv.2
      simp [encodeVal, hx, hval]
  · have hval : sval 2 (readBE (sEnc 2 i)) = i :=
      sval_sEnc 2 32768 i (by norm_num) (by norm_num) hv.1 hv.2
    simp only [encodeVal, List.cons_append]
    rw [if_neg (show ¬ (sEnc 2 i ++ rest).length < 2 by
      simp only [List.length_append, length_sEnc]; omega)]
    rw [List.take_left' (by simp : (sEnc 2 i).length = 2),
      List.drop_left' (by simp : (sEnc 2 i).length = 2), hval]
  · have hval : sval 4 (readBE (sEnc 4 i)) = i :=
      sval_sEnc 4 2147483648 i (by norm_num) (by norm_num) hv.1 hv.2
    simp only [encodeVal, List.cons_append]
    rw [if_neg (show ¬ (sEnc 4 i ++ rest).length < 4 by
      simp only [List.length_append, length_sEnc]; omega)]
    rw [List.take_left' (by simp : (sEnc 4 i).length = 4),
      List.drop_left' (by simp : (sEnc 4 i).length = 4), hval]
  · have hval : sval 8 (readBE (sEnc 8 i)) = i :=
      sval_sEnc 8 9223372036854775808 i (by norm_num) (by norm_num) hv.1 hv.2
    simp only [encodeVal, List.cons_append]
    rw [if_neg (show ¬ (sEnc 8 i ++ rest).length < 8 by
      simp only [List.length_append, length_sEnc]; omega)]
    rw [List.take_left' (by simp : (sEnc 8 i).length = 8),
      List.drop_left' (by simp : (sEnc 8 i).length = 8), hval]
  · have hv2 : bs.length < 65536 := hv
    have hlen : readBE (beBytes 2 bs.length) = bs.length :=
      readBE_beBytes 2 bs.length (by
        have h2 : (256 : Nat) ^ 2 = 65536 := by norm_num
        omega)
    simp only [encodeVal, List.cons_append, List.append_assoc]
    rw [if_neg (show ¬ (beBytes 2 bs.length ++ (bs ++ rest)).length < 2 by
      simp only [List.length_append, length_beBytes]; omega)]
    rw [List.take_left' (by simp : (beBytes 2 bs.length).length = 2),
      List.drop_left' (by simp : (beBytes 2 bs.length).length = 2), hlen,
      List.take_left, List.drop_left]
  · have hv2 : bs.length < 65536 := hv
    have hlen : readBE (beBytes 2 bs.length) = bs.length :=
      readBE_beBytes 2 bs.length (by
        have h2 : (256 : Nat) ^ 2 = 65536 := by norm_num
        omega)
    simp only [encodeVal, List.cons_append, List.append_assoc]
    rw [if_neg (show ¬ (beBytes 2 bs.length ++ (bs ++ rest)).length < 2 by
      simp only [List.length_append, length_beBytes]; omega)]
    rw [List.take_left' (by simp : (beBytes 2 bs.length).length = 2),
      List.drop_left' (by simp : (beBytes 2 bs.length).length = 2), hlen,
      List.take_left, List.drop_left]
  · have hval : sval 8 (readBE (sEnc 8 i)) = i :=
      sval_sEnc 8 9223372036854775808 i (by norm_num) (by norm_num) hv.1 hv.2
    simp only [encodeVal, List.cons_append]
    rw [if_neg (show ¬ (sEnc 8 i ++ rest).length < 8 by
      simp only [List.length_append, length_sEnc]; omega)]
    rw [List.take_left' (by simp : (sEnc 8 i).length = 8),
      List.drop_left' (by simp : (sEnc 8 i).length = 8), hval]
  · have hv2 : bs.length = 16 := hv
    simp only [encodeVal, List.cons_append]
    rw [List.take_left' hv2, List.drop_left' hv2]

/-- Any type tag 10 or above makes the header codec throw
`unknownHeaderType` with that tag. -/
theorem parseHeaders_unknown_tag (name : List Nat) (tag : Nat) (rest : List Nat)
    (htag : 10 ≤ tag) :
    parseHeaders (name.length :: name ++ tag :: rest) = .error (.unknownHeaderType tag) := by
  obtain ⟨t, rfl⟩ : ∃ t, tag = t + 10 := ⟨tag - 10, by omega⟩
  rw [show name.length :: name ++ (t + 10) :: rest = name.length :: (name ++ ((t + 10) :: rest))
    from by simp]
  rw [parseHeaders_eq]
  simp only [headerStep, List.take_left, List.drop_left]


/-! ### Claim theorems -/

/-- Claim C1, counterexample: decoding `b` in one call and decoding the
same bytes split into two chunks yield different frame sequences.  The
frame declares `headersLength = 8` inside `totalLength = 16`, so its
header slice reaches past the frame into whichever later bytes are
already buffered. -/
theorem c1_counterexample :
    ¬ ((decodeAll gzNone ([0,0,0,16, 0,0,0,8, 0,0,0,0, 1,97,2,5] ++ [0,0,0,0])).1 =
       (feedDecode gzNone [] [[0,0,0,16, 0,0,0,8, 0,0,0,0, 1,97,2,5], [0,0,0,0]]).1) := by
  intro h
  have h2 := congrArg (List.map Frame.headers) h
  revert h2
  decide

/-- Claim C1, amended: whenever every suffix of the stream satisfies the
spec constraint `headersLength ≤ totalLength - 16` on its prelude (the
buffer states of either run are all among these suffixes), feeding all
bytes at once and feeding them in arbitrary chunks produce the same
frame sequence from one `decode()` call after each feed. -/
theorem c1_chunk_invariance (gz : List Nat → Option (List Nat)) (chunks : List (List Nat))
    (hfit : SuffixFit (concatChunks chunks)) :
    (decodeAll gz (concatChunks chunks)).1 = (feedDecode gz [] chunks).1 := by
  rw [feedDecode_eq gz chunks [] (Or.inl (by simp)) (by simpa using hfit)]
  rfl

theorem c1_witness :
    (decodeAll gzNone (concatChunks [[0,0,0,16, 0,0,0,0, 0,0,0,0], [0,0,0,0, 0]])).1 =
      (feedDecode gzNone [] [[0,0,0,16, 0,0,0,0, 0,0,0,0], [0,0,0,0, 0]]).1 :=
  c1_chunk_invariance gzNone [[0,0,0,16, 0,0,0,0, 0,0,0,0], [0,0,0,0, 0]]
    (suffixFit_of_bounded _ (by decide))

/-- Claim C2, counterexample: a declared `totalLength` of 12 lies inside
the spec Section 6 bound `12 ≤ totalLength ≤ 16*1024*1024`, yet the
code throws FormatError(invalid length) for it (the code requires at
least 12 + 4 = 16). -/
theorem c2_counterexample :
    parseFrame gzNone [0,0,0,12, 0,0,0,0, 0,0,0,0, 0,0,0,0] = .error (.invalidLength 12) ∧
      12 ≤ 12 ∧ 12 ≤ 16 * 1024 * 1024 :=
  ⟨rfl, by norm_num, by norm_num⟩

/-- Claim C2, amended: with at least one prelude buffered, extraction
fails with FormatError(invalid length) reporting the frame's own
declared length exactly when that length lies outside
`[16, 16*1024*1024]`; moreover every invalid-length error ever raised
(including from a nested frame) reports a length outside those bounds. -/
theorem c2_invalid_length (gz : List Nat → Option (List Nat)) (b : List Nat)
    (h16 : 16 ≤ b.length) :
    parseFrame gz b = .error (.invalidLength (u32at b 0)) ↔
      ¬ (16 ≤ u32at b 0 ∧ u32at b 0 ≤ 16 * 1024 * 1024) := by
  constructor
  · intro h
    have hb := parseFrame_invalid_bounds gz b (u32at b 0) h
    omega
  · intro h
    rw [parseFrame_eq]
    simp only [frameStep]
    rw [if_neg (by omega), if_pos (by omega)]

theorem c2_witness :
    16 ≤ ([0,0,0,0, 0,0,0,0, 0,0,0,0, 0,0,0,0] : List Nat).length ∧
      (parseFrame gzNone [0,0,0,0, 0,0,0,0, 0,0,0,0, 0,0,0,0] =
          .error (.invalidLength (u32at [0,0,0,0, 0,0,0,0, 0,0,0,0, 0,0,0,0] 0)) ↔
        ¬ (16 ≤ u32at [0,0,0,0, 0,0,0,0, 0,0,0,0, 0,0,0,0] 0 ∧
           u32at [0,0,0,0, 0,0,0,0, 0,0,0,0, 0,0,0,0] 0 ≤ 16 * 1024 * 1024)) :=
  ⟨by decide, c2_invalid_length gzNone [0,0,0,0, 0,0,0,0, 0,0,0,0, 0,0,0,0] (by decide)⟩

/-- Claim C3, counterexample: the corrupt byte 1 in front of a valid
16-byte frame makes the first four buffered bytes read as the in-bounds
declared length 2^24, so `decode()` reports Incomplete: no resync skip
happens, nothing is yielded, and the buffer is left untouched, so the
valid frame is never recovered. -/
theorem c3_counterexample :
    decodeAll gzNone (1 :: [0,0,0,16, 0,0,0,0, 0,0,0,0, 0,0,0,0]) =
      ([], 1 :: [0,0,0,16, 0,0,0,0, 0,0,0,0, 0,0,0,0], 0) := rfl

/-- Claim C3, amended: when the corrupt byte together with the frame's
first three bytes declares a length outside `[16, 16*1024*1024]`,
`decode()` performs exactly one one-byte resync skip and still yields
the frame of `f` intact (its nested frame in its place when present). -/
theorem c3_corrupt_byte_resync (gz : List Nat → Option (List Nat)) (c : Nat)
    (f : List Nat) (fr : Frame)
    (hf : parseFrame gz f = .ok (some fr)) (hlen : fr.consumed = f.length)
    (hbad : u32at (c :: f) 0 < 16 ∨ 16 * 1024 * 1024 < u32at (c :: f) 0) :
    decodeAll gz (c :: f) = ([fr.emit], [], 1) := by
  have hc := parseFrame_consumed gz f fr hf
  have hpc : parseFrame gz (c :: f) = .error (.invalidLength (u32at (c :: f) 0)) := by
    rw [parseFrame_eq]
    simp only [frameStep]
    rw [if_neg (by simp only [List.length_cons]; omega), if_pos hbad]
  have hempty : f.drop fr.consumed = [] := by
    rw [hlen]
    exact List.drop_length f
  have hds : decodeAll gz f = ([fr.emit], [], 0) := by
    rw [decodeAll_of_some gz f fr (by omega) hf, hempty]
    rfl
  rw [decodeAll_of_error gz (c :: f) _ (by simp only [List.length_cons]; omega) hpc]
  rw [show (c :: f).drop 1 = f from rfl, hds]

theorem c3_witness :
    decodeAll gzNone (0 :: [0,0,0,16, 0,0,0,0, 0,0,0,0, 0,0,0,0]) =
      ([(Frame.mk [] (some []) none 16).emit], [], 1) :=
  c3_corrupt_byte_resync gzNone 0 [0,0,0,16, 0,0,0,0, 0,0,0,0, 0,0,0,0]
    (Frame.mk [] (some []) none 16) rfl rfl (by decide)

/-- Claim C4, counterexample: a frame whose `:content-type` header
equals the nested-stream marker but whose payload region is empty is
surfaced by `decode()` with `payload = null` and `nested = null`:
neither of {payload, nested} is meaningful. -/
theorem c4_counterexample :
    ((decodeAll gzNone ([0,0,0,67, 0,0,0,51, 0,0,0,0] ++
        (13 :: ctName ++ 7 :: 0 :: 34 :: markerName) ++ [0,0,0,0])).1.map
      (fun fr => (isMarker fr.headers, fr.payload.isSome, fr.nested.isSome))) =
      [(true, false, false)] := rfl

/-- Claim C4, amended: every frame surfaced by `decode()` has at most
one of {payload, nested} present: a marker frame has no payload (its
`nested` may also be absent when the payload held no complete frame),
and every non-marker frame has a payload (possibly empty) and no
nested frame. -/
theorem c4_payload_nested (gz : List Nat → Option (List Nat)) (b : List Nat) (fr : Frame)
    (hmem : fr ∈ (decodeAll gz b).1) :
    (isMarker fr.headers = true → fr.payload = none) ∧
      (isMarker fr.headers = false → (∃ q, fr.payload = some q) ∧ fr.nested = none) :=
  decodeAll_wf gz b.length b le_rfl fr hmem

theorem c4_witness :
    (isMarker (Frame.mk [] (some []) none 16).headers = true →
      (Frame.mk [] (some []) none 16).payload = none) ∧
    (isMarker (Frame.mk [] (some []) none 16).headers = false →
      (∃ q, (Frame.mk [] (some []) none 16).payload = some q) ∧
        (Frame.mk [] (some []) none 16).nested = none) :=
  c4_payload_nested gzNone [0,0,0,16, 0,0,0,0, 0,0,0,0, 0,0,0,0]
    (Frame.mk [] (some []) none 16) (List.Mem.head [])

/-- Claim C5: one `decode()` iteration with at least 16 buffered bytes:
on Incomplete nothing is consumed and the call ends; on success the
extracted frame consumed exactly the declared `totalLength`, which is
at most the buffered length, and the buffer advances by exactly that
amount; on a thrown FormatError the buffer advances by exactly one
byte. -/
theorem c5_decode_step_invariants (gz : List Nat → Option (List Nat)) (b : List Nat)
    (h16 : 16 ≤ b.length) :
    (parseFrame gz b = .ok none → decodeAll gz b = ([], b, 0)) ∧
    (∀ f : Frame, parseFrame gz b = .ok (some f) →
      f.consumed = u32at b 0 ∧ f.consumed ≤ b.length ∧
      decodeAll gz b = (f.emit :: (decodeAll gz (b.drop f.consumed)).1,
        (decodeAll gz (b.drop f.consumed)).2.1, (decodeAll gz (b.drop f.consumed)).2.2)) ∧
    (∀ e : FormatError, parseFrame gz b = .error e →
      decodeAll gz b = ((decodeAll gz (b.drop 1)).1, (decodeAll gz (b.drop 1)).2.1,
        (decodeAll gz (b.drop 1)).2.2 + 1)) := by
  refine ⟨fun hp => decodeAll_of_none gz b hp, fun f hp => ?_,
    fun e hp => decodeAll_of_error gz b e (by omega) hp⟩
  have hc := parseFrame_consumed gz b f hp
  exact ⟨hc.1, hc.2.2.1, decodeAll_of_some gz b f (by omega) hp⟩

theorem c5_witness :
    decodeAll gzNone [0,0,0,20, 0,0,0,0, 0,0,0,0, 0,0,0,0] =
      ([], [0,0,0,20, 0,0,0,0, 0,0,0,0, 0,0,0,0], 0) :=
  (c5_decode_step_invariants gzNone [0,0,0,20, 0,0,0,0, 0,0,0,0, 0,0,0,0] (by decide)).1 rfl

/-- Claim C6, counterexample: an extracted frame whose `:content-type`
equals the nested-stream marker but whose payload region holds no
complete inner frame is yielded itself by `decode()`, with no inner
frame in its place. -/
theorem c6_counterexample :
    ((decodeAll gzNone ([0,0,0,69, 0,0,0,51, 0,0,0,0] ++
        (13 :: ctName ++ 7 :: 0 :: 34 :: markerName) ++ ([0,0] ++ [0,0,0,0]))).1.map
      (fun fr => (isMarker fr.headers, fr.nested.isSome))) = [(true, false)] := rfl

/-- Claim C6, amended: `decode()` yields, in place of an extracted
frame, its nested frame whenever one is present; a marker frame has no
payload and its `nested` field is exactly the recursive extraction of
its payload region, so the inner frame is yielded when that extraction
produced one, and the outer frame itself otherwise (one unwrapping
level at the decoder boundary). -/
theorem c6_nested_unwrap (gz : List Nat → Option (List Nat)) (b : List Nat) (fr : Frame)
    (hp : parseFrame gz b = .ok (some fr)) :
    (decodeAll gz b).1.head? = some fr.emit ∧
    (∀ g : Frame, fr.nested = some g → fr.emit = g) ∧
    (isMarker fr.headers = true → fr.payload = none ∧
      parseFrame gz ((b.take (u32at b 0 - 4)).drop (12 + u32at b 4)) = .ok fr.nested) := by
  have hc := parseFrame_consumed gz b fr hp
  refine ⟨?_, ?_, ?_⟩
  · rw [decodeAll_of_some gz b fr (by omega) hp]
    rfl
  · intro g hg
    unfold Frame.emit
    rw [hg]
  · intro hm
    rw [parseFrame_eq] at hp
    exact (frameStep_shape gz (parseFrame gz) b fr hp).2.1 hm

theorem c6_witness :
    (decodeAll gzNone ([0,0,0,83, 0,0,0,51, 0,0,0,0] ++
        (13 :: ctName ++ 7 :: 0 :: 34 :: markerName) ++
        ([0,0,0,16, 0,0,0,0, 0,0,0,0, 0,0,0,0] ++ [0,0,0,0]))).1.head? =
      some (Frame.mk [] (some []) none 16) :=
  (c6_nested_unwrap gzNone
    ([0,0,0,83, 0,0,0,51, 0,0,0,0] ++
      (13 :: ctName ++ 7 :: 0 :: 34 :: markerName) ++
      ([0,0,0,16, 0,0,0,0, 0,0,0,0, 0,0,0,0] ++ [0,0,0,0]))
    (Frame.mk [(ctName, HVal.str markerName)] none
      (some (Frame.mk [] (some []) none 16)) 83) (by rfl)).1

/-- Claim C7: the header codec reads records of 1-byte name length,
name bytes, 1-byte type tag and a tag-specific value until the region
is exhausted: decoding an entry encoded per the Section 4.2 wire table
(tags 0/1 booleans with no value bytes, tag 2 a signed byte, tags 3/4/5
signed 16/32/64-bit big-endian, tags 6/7 2-byte big-endian length plus
raw bytes or UTF-8 text, tag 8 an 8-byte big-endian millisecond
timestamp, tag 9 a 16-byte UUID) recovers exactly the encoded name and
value and continues with the rest of the region; any tag 10 or above
fails with FormatError(unknown header type). -/
theorem c7_header_codec :
    (∀ (name : List Nat) (v : HVal) (rest : List Nat), name.length ≤ 255 → HValValid v →
      parseHeaders (encodeEntry name v ++ rest) =
        (parseHeaders rest).map (fun hs => (name, v) :: hs)) ∧
    (∀ (name : List Nat) (tag : Nat) (rest : List Nat), 10 ≤ tag →
      parseHeaders (name.length :: name ++ tag :: rest) = .error (.unknownHeaderType tag)) :=
  ⟨parseHeaders_encodeEntry, parseHeaders_unknown_tag⟩

theorem c7_witness :
    parseHeaders (encodeEntry [97] (HVal.long 42) ++ []) = .ok [([97], HVal.long 42)] ∧
    parseHeaders (encodeEntry [104,105] (HVal.str [104,101,108,108,111]) ++ []) =
      .ok [([104,105], HVal.str [104,101,108,108,111])] ∧
    parseHeaders [0, 10] = .error (.unknownHeaderType 10) := by
  refine ⟨?_, ?_, ?_⟩
  · rw [c7_header_codec.1 [97] (HVal.long 42) [] (by decide) (by decide)]
    rfl
  · rw [c7_header_codec.1 [104,105] (HVal.str [104,101,108,108,111]) [] (by decide) (by decide)]
    rfl
  · exact c7_header_codec.2 [] 10 [] (by decide)

/-- Claim C8, counterexample: a frame declaring `headersLength = 4`
inside `totalLength = 16` is extracted successfully even though
`headersLength > totalLength - 16`, and its headers are decoded from
the bytes `[12, 16)` — the frame's trailing-checksum region. -/
theorem c8_counterexample :
    parseFrame gzNone [0,0,0,16, 0,0,0,4, 0,0,0,0, 1,97,2,7] =
      .ok (some (Frame.mk [([97], HVal.byte 7)] (some []) none 16)) ∧
    ¬ (u32at [0,0,0,16, 0,0,0,4, 0,0,0,0, 1,97,2,7] 4 + 16 ≤
        u32at [0,0,0,16, 0,0,0,4, 0,0,0,0, 1,97,2,7] 0) :=
  ⟨rfl, by decide⟩

/-- Claim C8, amended: the codec never checks
`headersLength ≤ totalLength - 16`; the headers of a returned frame
are decoded from the clamped slice `[12, 12 + headersLength)` of the
buffer, which may overlap the checksum region or later bytes, and only
when `headersLength ≤ totalLength - 16` holds do the header bytes all
lie within the frame's own region `[12, totalLength - 4)`. -/
theorem c8_header_region (gz : List Nat → Option (List Nat)) (b : List Nat) (fr : Frame)
    (hp : parseFrame gz b = .ok (some fr)) :
    parseHeaders ((b.take (12 + u32at b 4)).drop 12) = .ok fr.headers ∧
    (12 + u32at b 4 + 4 ≤ u32at b 0 →
      (b.take (12 + u32at b 4)).drop 12 =
        ((b.take (u32at b 0 - 4)).drop 12).take (u32at b 4)) := by
  constructor
  · rw [parseFrame_eq] at hp
    exact (frameStep_shape gz (parseFrame gz) b fr hp).1
  · intro hfit
    rw [List.drop_take, List.drop_take, List.take_take]
    congr 1
    omega

theorem c8_witness :
    parseHeaders (([0,0,0,20, 0,0,0,4, 0,0,0,0, 1,97,2,7, 0,0,0,0].take
        (12 + u32at [0,0,0,20, 0,0,0,4, 0,0,0,0, 1,97,2,7, 0,0,0,0] 4)).drop 12) =
      .ok (Frame.mk [([97], HVal.byte 7)] (some []) none 20).headers ∧
    ([0,0,0,20, 0,0,0,4, 0,0,0,0, 1,97,2,7, 0,0,0,0].take
        (12 + u32at [0,0,0,20, 0,0,0,4, 0,0,0,0, 1,97,2,7, 0,0,0,0] 4)).drop 12 =
      (([0,0,0,20, 0,0,0,4, 0,0,0,0, 1,97,2,7, 0,0,0,0].take
          (u32at [0,0,0,20, 0,0,0,4, 0,0,0,0, 1,97,2,7, 0,0,0,0] 0 - 4)).drop 12).take
        (u32at [0,0,0,20, 0,0,0,4, 0,0,0,0, 1,97,2,7, 0,0,0,0] 4) := by
  have h := c8_header_region gzNone [0,0,0,20, 0,0,0,4, 0,0,0,0, 1,97,2,7, 0,0,0,0]
    (Frame.mk [([97], HVal.byte 7)] (some []) none 20) rfl
  exact ⟨h.1, h.2 (by decide)⟩

/-- Claim C9: the event mapper reads the `:event-type` header as the
event type; the data is null when the payload is absent or empty, the
parsed structured value when the payload parses, and the payload's
UTF-8 text otherwise; it is a total function, raising no error on any
frame. -/
theorem c9_event_mapper {α : Type} (jp : List Nat → Option α) (fr : Frame) :
    (parseKiroEvent jp fr).1 = lookupLast fr.headers etName ∧
    ((fr.payload = none ∨ fr.payload = some []) → (parseKiroEvent jp fr).2 = KData.null) ∧
    (∀ p : List Nat, fr.payload = some p → p ≠ [] →
      (parseKiroEvent jp fr).2 =
        match jp p with
        | some j => KData.json j
        | none => KData.text p) := by
  cases fr with
  | mk hs pl nst c =>
    cases pl with
    | none =>
      refine ⟨rfl, fun _ => rfl, fun p hp => ?_⟩
      exact absurd hp (by simp [Frame.payload])
    | some p =>
      cases p with
      | nil =>
        refine ⟨rfl, fun _ => rfl, fun p hp hne => ?_⟩
        simp only [Frame.payload, Option.some.injEq] at hp
        exact absurd hp.symm hne
      | cons x xs =>
        refine ⟨?_, ?_, ?_⟩
        · show (match jp (x :: xs) with
            | some j => (lookupLast hs etName, KData.json j)
            | none => (lookupLast hs etName, KData.text (x :: xs))).1 = lookupLast hs etName
          cases jp (x :: xs) <;> rfl
        · intro hcase
          rcases hcase with h | h <;> simp [Frame.payload] at h
        · intro p hp hne
          simp only [Frame.payload, Option.some.injEq] at hp
          subst hp
          show (match jp (x :: xs) with
            | some j => (lookupLast hs etName, KData.json j)
            | none => (lookupLast hs etName, KData.text (x :: xs))).2 = _
          cases jp (x :: xs) <;> rfl

theorem c9_witness :
    (parseKiroEvent (fun _ => (none : Option Unit))
        (Frame.mk [(etName, HVal.str [101,110,100])] (some []) none 16)).1 =
      lookupLast (Frame.mk [(etName, HVal.str [101,110,100])] (some []) none 16).headers
        etName ∧
    (((Frame.mk [(etName, HVal.str [101,110,100])] (some []) none 16 : Frame).payload = none ∨
        (Frame.mk [(etName, HVal.str [101,110,100])] (some []) none 16 : Frame).payload =
          some []) →
      (parseKiroEvent (fun _ => (none : Option Unit))
          (Frame.mk [(etName, HVal.str [101,110,100])] (some []) none 16)).2 = KData.null) :=
  ⟨(c9_event_mapper (fun _ => (none : Option Unit))
      (Frame.mk [(etName, HVal.str [101,110,100])] (some []) none 16)).1,
   (c9_event_mapper (fun _ => (none : Option Unit))
      (Frame.mk [(etName, HVal.str [101,110,100])] (some []) none 16)).2.1⟩

/-- Claim C10: the decoder core never propagates an exception: a
`decode()` call on any byte sequence always returns, leaves a suffix of
the buffer as residue, performs at most one resync skip per buffered
byte, and when the buffered head throws any extraction error the error
is absorbed into at least one one-byte resync skip. -/
theorem c10_total_resync_safety (gz : List Nat → Option (List Nat)) (b : List Nat) :
    (∃ k, k ≤ b.length ∧ (decodeAll gz b).2.1 = b.drop k) ∧
    (decodeAll gz b).2.2 ≤ b.length ∧
    (∀ e : FormatError, 16 ≤ b.length → parseFrame gz b = .error e →
      1 ≤ (decodeAll gz b).2.2) := by
  refine ⟨?_, decodeAll_skips_le gz b.length b le_rfl, ?_⟩
  · obtain ⟨k, hk, hres⟩ := decodeAll_residue gz b.length b le_rfl
    exact ⟨k, hk, hres⟩
  · intro e h16 hp
    rw [decodeAll_of_error gz b e (by omega) hp]
    show 1 ≤ (decodeAll gz (b.drop 1)).2.2 + 1
    omega

theorem c10_witness :
    (decodeAll gzNone [0,0,0,0, 0,0,0,0, 0,0,0,0, 0,0,0,0]).2.2 ≤
      ([0,0,0,0, 0,0,0,0, 0,0,0,0, 0,0,0,0] : List Nat).length ∧
    1 ≤ (decodeAll gzNone [0,0,0,0, 0,0,0,0, 0,0,0,0, 0,0,0,0]).2.2 :=
  ⟨(c10_total_resync_safety gzNone [0,0,0,0, 0,0,0,0, 0,0,0,0, 0,0,0,0]).2.1,
   (c10_total_resync_safety gzNone [0,0,0,0, 0,0,0,0, 0,0,0,0, 0,0,0,0]).2.2
     (.invalidLength 0) (by decide) rfl⟩

end EvStream
